import Mathlib

/-!
Verification of the hotnote content-based comment anchoring engine.

Documents are modelled as lists of characters (`Str`).  JavaScript's
`String.prototype.substring` (with both arguments already clamped to
`0 ≤ i ≤ j`) becomes `substring`, which clamps out-of-range indices
exactly like the original: a start index past the end yields the empty
string and an end index past the end is truncated to the document end.

The definitions mirror, function by function, the code of
`src/utils/text-anchor.js` and `src/comments/comment-validator.js` as it
appears in the repository's sources.  The full body of
`findAnchorPosition` (the multi-candidate context scoring) is not part of
the sources — only an abbreviated sketch of it is — so that part is
modelled from the specification and is marked as such below.
-/

/-- Documents and text snippets are lists of characters. -/
abbrev Str := List Char

/-- JavaScript `s.substring(i, j)` for `i ≤ j`, with clamping. -/
def substring (s : Str) (i j : Nat) : Str := (s.drop i).take (j - i)

/-- A resolved position `{from, to}` in the current document.  The field
fields are spelled `from'`/`to'` because `from` and `to` are reserved words. -/
structure Position where
  from' : Nat
  to' : Nat
  deriving DecidableEq

/-- An anchor `{prefix, exact, suffix}`.  The fields `prefix`/`suffix` of
the source are spelled `pre`/`suf` here. -/
structure Anchor where
  pre : Str
  exact : Str
  suf : Str
  deriving DecidableEq

/-- Resolution status of a comment anchor. -/
inductive Status where
  | exact
  | snapped
  | orphaned
  deriving DecidableEq

/-- Model of `createAnchor(doc, from, to)` from `src/utils/text-anchor.js`:
`exact = doc.substring(from, to)`, `prefix = doc.substring(max(0, from-32), from)`,
`suffix = doc.substring(to, min(doc.length, to+32))`.  Natural-number
subtraction supplies the `max(0, ·)` clamp and `take` the `min` clamp. -/
def createAnchor (doc : Str) (f t : Nat) : Anchor :=
  { pre := substring doc (f - 32) f
    exact := substring doc f t
    suf := substring doc t (t + 32) }

/-- Does the literal pattern `pat` occur in `s` at offset `i`? -/
def matchesAt (s pat : Str) (i : Nat) : Bool :=
  decide (substring s i (i + pat.length) = pat)

/-- Worker for `occurrences`: scan offsets left to right starting at `i`,
emitting each match and continuing after its end (the source's
`RegExp.exec` loop with the `g` flag advances `lastIndex` past every
match, so occurrences are non-overlapping).  `fuel` bounds the scan. -/
def occurArg (s pat : Str) : Nat → Nat → List Position
  | 0, _ => []
  | fuel + 1, i =>
    if i + pat.length ≤ s.length then
      if matchesAt s pat i then
        ⟨i, i + pat.length⟩ :: occurArg s pat fuel (i + pat.length)
      else
        occurArg s pat fuel (i + 1)
    else []

/-- All non-overlapping occurrences of the literal string `pat` in `s`,
as `{from, to}` spans sorted by ascending `from` — the candidate list
built by the `while ((match = exactRegex.exec(doc)) !== null)` loop of
`findAnchorPosition` (the exact text is regex-escaped by the source, so
the search is for the literal text). -/
def occurrences (s pat : Str) : List Position := occurArg s pat (s.length + 1) 0

/-- Length of the longest common leading run of two strings (compare
character by character from the start of both until first mismatch). -/
def commonPrefixLen : Str → Str → Nat
  | a :: as, b :: bs => if a = b then commonPrefixLen as bs + 1 else 0
  | _, _ => 0

/-- Length of the longest common trailing run of two strings (scanning
backward from the end of both). -/
def commonSuffixLen (x y : Str) : Nat := commonPrefixLen x.reverse y.reverse

/-- The document text immediately following a candidate:
`doc[to : to + len(anchor.suffix)]`. -/
def followingText (doc : Str) (a : Anchor) (p : Position) : Str :=
  substring doc p.to' (p.to' + a.suf.length)

/-- The document text immediately preceding a candidate:
`doc[from - len(anchor.prefix) : from]`, clamped at the document start. -/
def precedingText (doc : Str) (a : Anchor) (p : Position) : Str :=
  substring doc (p.from' - a.pre.length) p.from'

/-- Modelled from the spec: the suffix context score of a candidate, from
§4.2 step 5 of the spec (the scoring body of `findAnchorPosition` in
`src/utils/text-anchor.js` lines 53-140 is absent from the sources; the
sketch in the analysis document stubs it out).  Scores are stored doubled
so that the 0.5-point prefix granularity stays in `Nat`: 100 points for
an exact suffix match becomes 200, and 1 point per leading matching
character becomes 2 (the per-character count is capped at
`len(anchor.suffix)` by construction of `commonPrefixLen`). -/
def suffixScore2 (doc : Str) (a : Anchor) (p : Position) : Nat :=
  if followingText doc a p = a.suf then 200
  else 2 * commonPrefixLen (followingText doc a p) a.suf

/-- Modelled from the spec: the prefix context score of a candidate, from
§4.2 step 5 of the spec (see `suffixScore2` for what is missing from the
sources).  Doubled: 50 points for an exact prefix match becomes 100, and
0.5 points per trailing matching character becomes 1. -/
def prefixScore2 (doc : Str) (a : Anchor) (p : Position) : Nat :=
  if precedingText doc a p = a.pre then 100
  else commonSuffixLen (precedingText doc a p) a.pre

/-- Modelled from the spec: `total = suffixScore + prefixScore`, doubled. -/
def total2 (doc : Str) (a : Anchor) (p : Position) : Nat :=
  suffixScore2 doc a p + prefixScore2 doc a p

/-- Keep the best-scoring element of `c :: cs` under the measure `f`,
replacing the running best only on a strictly higher score, so that on
ties the earliest element wins. -/
def foldpick (f : Position → Nat) (c : Position) (cs : List Position) : Position :=
  cs.foldl (fun best x => if f best < f x then x else best) c

/-- Modelled from the spec: §4.2 step 6 — return the candidate with the
highest `total`, ties broken by lowest `from` (the candidate list is
sorted ascending, and `foldpick` keeps the earliest of equal scores). -/
def pickBest (doc : Str) (a : Anchor) (c : Position) (cs : List Position) : Position :=
  foldpick (total2 doc a) c cs

/-- Modelled from the spec: `findAnchorPosition(doc, anchor)` of
`src/utils/text-anchor.js` (lines 53-140), whose full body is absent from
the sources — the analysis document shows only steps 1-4 and stubs the
scoring.  Steps follow §4.2 of the spec: empty document → Orphaned
(`null`, here `none`); empty `exact` → Orphaned immediately (§7:
malformed anchors must not reach the matching routine, where an empty
pattern could trivially match everywhere); zero candidates → Orphaned;
otherwise the best-scoring candidate (a single candidate is returned
directly — `pickBest c [] = c`). -/
def findAnchorPosition (doc : Str) (a : Anchor) : Option Position :=
  if doc.length = 0 then none
  else if a.exact.length = 0 then none
  else
    match occurrences doc a.exact with
    | [] => none
    | c :: cs => some (pickBest doc a c cs)

/-- One character of the regex class `\w`: ASCII letters, digits, `_`. -/
def isWordChar (c : Char) : Bool := c.isAlpha || c.isDigit || c = '_'

/-- Worker for `indexOf`: first match offset at or after `i`. -/
def indexOfAux (s pat : Str) : Nat → Nat → Option Nat
  | 0, _ => none
  | fuel + 1, i => if matchesAt s pat i then some i else indexOfAux s pat fuel (i + 1)

/-- JavaScript `s.indexOf(pat)` as an `Option`: offset of the first
occurrence of `pat` in `s`, `none` standing for the sentinel `-1`. -/
def indexOf (s pat : Str) : Option Nat := indexOfAux s pat (s.length + 1) 0

/-- Worker for `lastIndexOf`: scan offsets downward from the bound. -/
def lastIndexOfAux (s pat : Str) : Nat → Option Nat
  | 0 => if matchesAt s pat 0 then some 0 else none
  | i + 1 => if matchesAt s pat (i + 1) then some (i + 1) else lastIndexOfAux s pat i

/-- JavaScript `s.lastIndexOf(pat)` as an `Option`: offset of the last
occurrence of `pat` in `s`, `none` standing for the sentinel `-1`.  Like
the original, the empty pattern is found at offset `s.length`. -/
def lastIndexOf (s pat : Str) : Option Nat := lastIndexOfAux s pat s.length

/-- JavaScript `s.trimEnd()`: remove trailing whitespace. -/
def trimEnd (s : Str) : Str := (s.reverse.dropWhile Char.isWhitespace).reverse

/-- Worker for `firstWordRun`, carrying the absolute offset `i`. -/
def firstWordAux : Str → Nat → Option Position
  | [], _ => none
  | c :: cs, i =>
    if isWordChar c then some ⟨i, i + 1 + (cs.takeWhile isWordChar).length⟩
    else firstWordAux cs (i + 1)

/-- The span of the first maximal run of word characters in `s` — the
match of `s.match(/\b\w+\b/)` in `snapToNearestWord` (with `\b` on both
sides, the regex can only match a maximal run, and the engine returns
the leftmost one). -/
def firstWordRun (s : Str) : Option Position := firstWordAux s 0

/-- Worker for `wordRuns`; `acc` is the current run, reversed. -/
def wordRunsAux : Str → Str → List Str
  | [], acc => if acc = [] then [] else [acc.reverse]
  | c :: cs, acc =>
    if isWordChar c then wordRunsAux cs (c :: acc)
    else if acc = [] then wordRunsAux cs []
    else acc.reverse :: wordRunsAux cs []

/-- All maximal runs of word characters of `s`, in order.  The source's
`beforeSuffix.match(/\b\w+\b(?!.*\b\w+\b)/)` — the last word run with no
further word run after it — is `(wordRuns s).getLast?`. -/
def wordRuns (s : Str) : List Str := wordRunsAux s []

/-- Final fallback of `snapToNearestWord`: the source's
`context.match(/\b\w+\b/)` step, snapping to the first word run of the
look-ahead window (offsets are relative to `searchStart`). -/
def snapFirstWord (searchStart : Nat) (context : Str) : Option Position :=
  match firstWordRun context with
  | some r => some ⟨searchStart + r.from', searchStart + r.to'⟩
  | none => none

/-- Model of `snapToNearestWord(doc, prefix, suffix)` from the comment-validation
code (`src/utils/text-anchor.js` additions): locate the last occurrence
of the prefix; look ahead in a 100-character window; if the suffix is
long (`suffix && suffix.length > 5`, i.e. more than 5 characters) and
occurs in the window, snap to the last word before it (found via the
last word run of the trimmed text before the suffix, located with
`lastIndexOf` on its text, exactly as the source does); otherwise snap
to the first word run of the window (`snapFirstWord`).  The inner `none`
case of the last-word `lastIndexOf` is unreachable (the run occurs in
the text). -/
def snapToNearestWord (doc pre suf : Str) : Option Position :=
  match lastIndexOf doc pre with
  | none => none
  | some prefixIndex =>
    let searchStart := prefixIndex + pre.length
    let contextEnd := min (searchStart + 100) doc.length
    let context := substring doc searchStart contextEnd
    if 5 < suf.length then
      match indexOf context suf with
      | some suffixIndex =>
        let beforeSuffix := trimEnd (context.take suffixIndex)
        match (wordRuns beforeSuffix).getLast? with
        | some w =>
          match lastIndexOf beforeSuffix w with
          | some j => some ⟨searchStart + j, searchStart + j + w.length⟩
          | none => none
        | none => snapFirstWord searchStart context
      | none => snapFirstWord searchStart context
    else snapFirstWord searchStart context

/-- Result of `findAnchorPositionWithStatus`: a position (or `none`, the
source's `from: null, to: null`) together with a status. -/
structure StatusResult where
  position : Option Position
  status : Status
  deriving DecidableEq

/-- Model of `findAnchorPositionWithStatus(doc, anchor, \x7ballowSnap\x7d)` from the
comment-validation code: empty document → orphaned; a resolved exact
position → `exact`; else, when snapping is allowed and the word snapper
finds a span → `snapped`; otherwise orphaned.  The `warnOnSnap` option
only controls console logging and has no modelled effect. -/
def findAnchorPositionWithStatus (doc : Str) (a : Anchor) (allowSnap : Bool) : StatusResult :=
  if doc.length = 0 then ⟨none, Status.orphaned⟩
  else
    match findAnchorPosition doc a with
    | some p => ⟨some p, Status.exact⟩
    | none =>
      if allowSnap then
        match snapToNearestWord doc a.pre a.suf with
        | some p => ⟨some p, Status.snapped⟩
        | none => ⟨none, Status.orphaned⟩
      else ⟨none, Status.orphaned⟩

/-- A comment, restricted to the fields the validator reads: its `id`
and its content anchor. -/
structure Comment where
  id : Str
  anchor : Anchor
  deriving DecidableEq

/-- One entry of a validation result, as built by
`CommentValidator.validateComment`. -/
structure Validation where
  id : Str
  originalAnchor : Anchor
  status : Status
  position : Option Position
  isValid : Bool
  deriving DecidableEq

/-- Model of `CommentValidator.validateComment(doc, comment, options)` from
`src/comments/comment-validator.js`: resolve the comment's anchor with
the requested snapping policy and record id, original anchor, status,
position and validity (`status !== 'orphaned'`). -/
def validateComment (doc : Str) (c : Comment) (allowSnap : Bool) : Validation :=
  let r := findAnchorPositionWithStatus doc c.anchor allowSnap
  { id := c.id
    originalAnchor := c.anchor
    status := r.status
    position := r.position
    isValid := decide (r.status ≠ Status.orphaned) }

/-- Result of `CommentValidator.validateComments`. -/
structure ValidationResults where
  valid : List Validation
  snapped : List Validation
  orphaned : List Validation
  total : Nat
  validCount : Nat
  snappedCount : Nat
  orphanedCount : Nat
  deriving DecidableEq

/-- Model of `CommentValidator.validateComments(doc, comments, options)` from
`src/comments/comment-validator.js`: validate every comment, partition
the results by status (the source's loop pushes each result onto exactly
one of three arrays in input order, which is the same as filtering the
mapped list three ways), and derive all counts. -/
def validateComments (doc : Str) (comments : List Comment) (allowSnap : Bool) : ValidationResults :=
  let vs := comments.map (fun c => validateComment doc c allowSnap)
  let valid := vs.filter (fun v => v.status == Status.exact)
  let snapped := vs.filter (fun v => v.status == Status.snapped)
  let orphaned := vs.filter (fun v => v.status == Status.orphaned)
  { valid := valid
    snapped := snapped
    orphaned := orphaned
    total := comments.length
    validCount := valid.length
    snappedCount := snapped.length
    orphanedCount := orphaned.length }

/-- Model of `CommentValidator.getOrphanedCommentIds(doc, comments)` from
`src/comments/comment-validator.js`: validate with `allowSnap = false`
and return the ids of the orphaned results. -/
def getOrphanedCommentIds (doc : Str) (comments : List Comment) : List Str :=
  (validateComments doc comments false).orphaned.map (fun v => v.id)

/-! ### Basic facts about `substring` and `matchesAt` -/

theorem substring_length (s : Str) (i j : Nat) :
    (substring s i j).length = min (j - i) (s.length - i) := by
  simp [substring]

theorem take_min_length {α : Type} (xs : List α) (n : Nat) :
    xs.take (min n xs.length) = xs.take n := by
  rcases Nat.le_total n xs.length with h | h
  · rw [Nat.min_eq_left h]
  · rw [Nat.min_eq_right h, List.take_length, List.take_of_length_le h]

theorem substring_self_length (s : Str) (i j : Nat) :
    substring s i (i + (substring s i j).length) = substring s i j := by
  show (s.drop i).take (i + (substring s i j).length - i) = _
  have h1 : i + (substring s i j).length - i = (substring s i j).length := by omega
  rw [h1]
  show (s.drop i).take ((s.drop i).take (j - i)).length = _
  rw [List.length_take]
  exact take_min_length _ _

theorem matchesAt_eq {s pat : Str} {i : Nat} (h : matchesAt s pat i = true) :
    substring s i (i + pat.length) = pat := of_decide_eq_true h

theorem matchesAt_bound {s pat : Str} {i : Nat} (hp : pat ≠ [])
    (h : matchesAt s pat i = true) : i + pat.length ≤ s.length := by
  have he := matchesAt_eq h
  have hl := congrArg List.length he
  rw [substring_length] at hl
  have hi : i + pat.length - i = pat.length := by omega
  rw [hi] at hl
  have hpl : 0 < pat.length := List.length_pos.mpr hp
  have hge : pat.length ≤ s.length - i := by
    by_contra hc
    push_neg at hc
    rw [Nat.min_eq_right (Nat.le_of_lt hc)] at hl
    omega
  omega

/-! ### Invariants of the occurrence enumeration -/

theorem occurArg_mem {s pat : Str} :
    ∀ (fuel i : Nat), ∀ q ∈ occurArg s pat fuel i,
      i ≤ q.from' ∧ q.to' = q.from' + pat.length ∧ matchesAt s pat q.from' = true := by
  intro fuel
  induction fuel with
  | zero => intro i q hq; simp [occurArg] at hq
  | succ n ih =>
    intro i q hq
    rw [occurArg] at hq
    by_cases hb : i + pat.length ≤ s.length
    · rw [if_pos hb] at hq
      by_cases hm : matchesAt s pat i
      · rw [if_pos hm] at hq
        rcases List.mem_cons.mp hq with h | h
        · subst h; exact ⟨Nat.le_refl _, rfl, hm⟩
        · have h2 := ih (i + pat.length) q h
          exact ⟨by omega, h2.2⟩
      · rw [if_neg hm] at hq
        have h2 := ih (i + 1) q hq
        exact ⟨by omega, h2.2⟩
    · rw [if_neg hb] at hq; simp at hq

theorem occurArg_sorted {s pat : Str} (hp : pat ≠ []) :
    ∀ (fuel i : Nat), (occurArg s pat fuel i).Pairwise (fun a b => a.from' < b.from') := by
  intro fuel
  induction fuel with
  | zero => intro i; simp [occurArg]
  | succ n ih =>
    intro i
    rw [occurArg]
    by_cases hb : i + pat.length ≤ s.length
    · rw [if_pos hb]
      by_cases hm : matchesAt s pat i
      · rw [if_pos hm]
        refine List.pairwise_cons.mpr ⟨?_, ih _⟩
        intro b hbmem
        have h2 := occurArg_mem n (i + pat.length) b hbmem
        have hpl : 0 < pat.length := List.length_pos.mpr hp
        show i < b.from'
        omega
      · rw [if_neg hm]; exact ih _
    · rw [if_neg hb]; simp

theorem occurArg_find {s pat : Str} (hp : pat ≠ []) :
    ∀ (fuel i k : Nat), i ≤ k → matchesAt s pat k = true →
      s.length + 1 - i ≤ fuel → occurArg s pat fuel i ≠ [] := by
  intro fuel
  induction fuel with
  | zero =>
    intro i k hik hm hf
    have hkb := matchesAt_bound hp hm
    have hpl : 0 < pat.length := List.length_pos.mpr hp
    omega
  | succ n ih =>
    intro i k hik hm hf
    rw [occurArg]
    have hkb := matchesAt_bound hp hm
    have hb : i + pat.length ≤ s.length := by omega
    rw [if_pos hb]
    by_cases hmi : matchesAt s pat i
    · rw [if_pos hmi]; simp
    · rw [if_neg hmi]
      by_cases hik2 : i = k
      · subst hik2; exact absurd hm hmi
      · exact ih (i + 1) k (by omega) hm (by omega)

theorem occurrences_sorted {s pat : Str} (hp : pat ≠ []) :
    (occurrences s pat).Pairwise (fun a b => a.from' < b.from') :=
  occurArg_sorted hp _ 0

theorem occurrences_mem {s pat : Str} {q : Position} (hq : q ∈ occurrences s pat) :
    q.to' = q.from' + pat.length ∧ matchesAt s pat q.from' = true :=
  (occurArg_mem _ 0 q hq).2

theorem occurrences_ne_nil {s pat : Str} {k : Nat} (hp : pat ≠ [])
    (hm : matchesAt s pat k = true) : occurrences s pat ≠ [] :=
  occurArg_find hp _ 0 k (Nat.zero_le k) hm (by omega)

/-! ### The best-candidate fold: membership, maximality, first-wins -/

theorem foldpick_cons (f : Position → Nat) (c x : Position) (xs : List Position) :
    foldpick f c (x :: xs) = foldpick f (if f c < f x then x else c) xs := rfl

theorem foldpick_mem (f : Position → Nat) :
    ∀ (cs : List Position) (c : Position), foldpick f c cs ∈ c :: cs := by
  intro cs
  induction cs with
  | nil => intro c; simp [foldpick]
  | cons x xs ih =>
    intro c
    rw [foldpick_cons]
    by_cases h : f c < f x
    · rw [if_pos h]
      rcases List.mem_cons.mp (ih x) with h' | h'
      · rw [h']; simp
      · simp [List.mem_cons, h']
    · rw [if_neg h]
      rcases List.mem_cons.mp (ih c) with h' | h'
      · rw [h']; simp
      · simp [List.mem_cons, h']

theorem foldpick_le (f : Position → Nat) :
    ∀ (cs : List Position) (c : Position), ∀ q ∈ c :: cs, f q ≤ f (foldpick f c cs) := by
  intro cs
  induction cs with
  | nil =>
    intro c q hq
    have hq' := List.mem_singleton.mp hq
    subst hq'
    exact Nat.le_refl _
  | cons x xs ih =>
    intro c q hq
    rw [foldpick_cons]
    rcases List.mem_cons.mp hq with rfl | hq'
    · by_cases h : f q < f x
      · rw [if_pos h]
        have hx := ih x x (List.mem_cons_self x xs)
        omega
      · rw [if_neg h]
        exact ih q q (List.mem_cons_self q xs)
    · rcases List.mem_cons.mp hq' with rfl | hq''
      · by_cases h : f c < f q
        · rw [if_pos h]
          exact ih q q (List.mem_cons_self q xs)
        · rw [if_neg h]
          have hc := ih c c (List.mem_cons_self c xs)
          omega
      · by_cases h : f c < f x
        · rw [if_pos h]; exact ih x q (List.mem_cons_of_mem _ hq'')
        · rw [if_neg h]; exact ih c q (List.mem_cons_of_mem _ hq'')

theorem foldpick_first (f : Position → Nat) :
    ∀ (cs : List Position) (c : Position),
      (c :: cs).Pairwise (fun a b => a.from' < b.from') →
      ∀ q ∈ c :: cs, f q = f (foldpick f c cs) → (foldpick f c cs).from' ≤ q.from' := by
  intro cs
  induction cs with
  | nil =>
    intro c _ q hq _
    have hq' := List.mem_singleton.mp hq
    subst hq'
    exact Nat.le_refl _
  | cons x xs ih =>
    intro c hsort q hq heq
    rw [foldpick_cons] at heq ⊢
    obtain ⟨hc, hrest⟩ := List.pairwise_cons.mp hsort
    obtain ⟨hx, hxs⟩ := List.pairwise_cons.mp hrest
    by_cases h : f c < f x
    · rw [if_pos h] at heq ⊢
      rcases List.mem_cons.mp hq with rfl | hq'
      · exfalso
        have hle := foldpick_le f xs x x (List.mem_cons_self x xs)
        omega
      · exact ih x hrest q hq' heq
    · rw [if_neg h] at heq ⊢
      have hsort' : (c :: xs).Pairwise (fun a b => a.from' < b.from') :=
        List.pairwise_cons.mpr ⟨fun b hb => hc b (List.mem_cons_of_mem _ hb), hxs⟩
      rcases List.mem_cons.mp hq with rfl | hq'
      · exact ih q hsort' q (List.mem_cons_self q xs) heq
      · rcases List.mem_cons.mp hq' with rfl | hq''
        · have hle := foldpick_le f xs c c (List.mem_cons_self c xs)
          have hfc : f c = f (foldpick f c xs) := by omega
          have h1 := ih c hsort' c (List.mem_cons_self c xs) hfc
          have hcx := hc q (List.mem_cons_self q xs)
          omega
        · exact ih c hsort' q (List.mem_cons_of_mem _ hq'') heq

/-! ### Score bounds -/

theorem commonPrefixLen_le_right : ∀ x y : Str, commonPrefixLen x y ≤ y.length := by
  intro x
  induction x with
  | nil => intro y; cases y <;> simp [commonPrefixLen]
  | cons a as ih =>
    intro y
    cases y with
    | nil => simp [commonPrefixLen]
    | cons b bs =>
      by_cases h : a = b
      · have := ih bs
        simp only [commonPrefixLen, if_pos h, List.length_cons]
        omega
      · simp [commonPrefixLen, h]

theorem commonSuffixLen_le_right (x y : Str) : commonSuffixLen x y ≤ y.length := by
  have h := commonPrefixLen_le_right x.reverse y.reverse
  simpa [commonSuffixLen] using h

theorem suffixScore2_le (doc : Str) (a : Anchor) (p : Position) (h : a.suf.length ≤ 32) :
    suffixScore2 doc a p ≤ 200 := by
  unfold suffixScore2
  split
  · exact Nat.le_refl _
  · have hc := commonPrefixLen_le_right (followingText doc a p) a.suf
    omega

theorem prefixScore2_le (doc : Str) (a : Anchor) (p : Position) (h : a.pre.length ≤ 32) :
    prefixScore2 doc a p ≤ 100 := by
  unfold prefixScore2
  split
  · exact Nat.le_refl _
  · have hc := commonSuffixLen_le_right (precedingText doc a p) a.pre
    omega

theorem total2_le (doc : Str) (a : Anchor) (p : Position)
    (hs : a.suf.length ≤ 32) (hp : a.pre.length ≤ 32) : total2 doc a p ≤ 300 := by
  have h1 := suffixScore2_le doc a p hs
  have h2 := prefixScore2_le doc a p hp
  unfold total2
  omega

theorem total2_eq_max {doc : Str} {a : Anchor} {p : Position}
    (hs : a.suf.length ≤ 32) (hp : a.pre.length ≤ 32) (h : total2 doc a p = 300) :
    followingText doc a p = a.suf ∧ precedingText doc a p = a.pre := by
  unfold total2 suffixScore2 prefixScore2 at h
  by_cases h1 : followingText doc a p = a.suf
  · by_cases h2 : precedingText doc a p = a.pre
    · exact ⟨h1, h2⟩
    · rw [if_pos h1, if_neg h2] at h
      have hc := commonSuffixLen_le_right (precedingText doc a p) a.pre
      omega
  · rw [if_neg h1] at h
    have c1 := commonPrefixLen_le_right (followingText doc a p) a.suf
    by_cases h2 : precedingText doc a p = a.pre
    · rw [if_pos h2] at h; omega
    · rw [if_neg h2] at h
      have c2 := commonSuffixLen_le_right (precedingText doc a p) a.pre
      omega

theorem total2_max_of_exact {doc : Str} {a : Anchor} {p : Position}
    (h1 : followingText doc a p = a.suf) (h2 : precedingText doc a p = a.pre) :
    total2 doc a p = 300 := by
  unfold total2 suffixScore2 prefixScore2
  rw [if_pos h1, if_pos h2]

/-! ### The anchor built by `createAnchor` scores maximally at its own span -/

theorem createAnchor_suf_len (doc : Str) (f t : Nat) :
    (createAnchor doc f t).suf.length ≤ 32 := by
  show (substring doc t (t + 32)).length ≤ 32
  rw [substring_length]
  omega

theorem createAnchor_pre_len (doc : Str) (f t : Nat) :
    (createAnchor doc f t).pre.length ≤ 32 := by
  show (substring doc (f - 32) f).length ≤ 32
  rw [substring_length]
  omega

theorem createAnchor_exact_len (doc : Str) (f t : Nat) (hf : f ≤ t) (ht : t ≤ doc.length) :
    (createAnchor doc f t).exact.length = t - f := by
  show (substring doc f t).length = t - f
  rw [substring_length]
  omega

theorem createAnchor_following (doc : Str) (f t : Nat) :
    followingText doc (createAnchor doc f t) ⟨f, t⟩ = (createAnchor doc f t).suf := by
  show substring doc t (t + (substring doc t (t + 32)).length) = substring doc t (t + 32)
  exact substring_self_length doc t (t + 32)

theorem createAnchor_preceding (doc : Str) (f t : Nat) (hf : f ≤ doc.length) :
    precedingText doc (createAnchor doc f t) ⟨f, t⟩ = (createAnchor doc f t).pre := by
  show substring doc (f - (substring doc (f - 32) f).length) f = substring doc (f - 32) f
  have hl : (substring doc (f - 32) f).length = f - (f - 32) := by
    rw [substring_length]
    apply Nat.min_eq_left
    omega
  rw [hl]
  congr 1
  omega

/-! ### Claims about the anchor resolver -/

/-- Claim C3: for every non-empty document and every anchor whose `exact`
field is the empty string, `findAnchorPosition` terminates (it is a total
function) and returns the orphaned signal (`none`) immediately — the
empty pattern is never handed to the occurrence enumeration. -/
theorem claim_C3 (doc : Str) (a : Anchor) (hd : doc ≠ []) (he : a.exact = []) :
    findAnchorPosition doc a = none := by
  have h0 : ¬ doc.length = 0 := fun h => hd (List.length_eq_zero.mp h)
  unfold findAnchorPosition
  rw [if_neg h0, if_pos (by rw [he]; rfl)]

/-- Witness for C3 at a concrete non-empty document and empty-exact anchor. -/
theorem claim_C3_witness :
    findAnchorPosition ("abc".toList) ⟨[], [], []⟩ = none :=
  claim_C3 ("abc".toList) ⟨[], [], []⟩ (by decide) rfl

/-- Claim C5: Scenario A — in `"foo bar baz | foo bar qux"` the anchor
`{prefix: "| ", exact: "foo bar", suffix: " qux"}` resolves to the second
occurrence, at offset 14 (span 14-21), not the first at offset 0, with
status `exact`. -/
theorem claim_C5 :
    findAnchorPosition ("foo bar baz | foo bar qux".toList)
        ⟨"| ".toList, "foo bar".toList, " qux".toList⟩ = some ⟨14, 21⟩ ∧
    findAnchorPositionWithStatus ("foo bar baz | foo bar qux".toList)
        ⟨"| ".toList, "foo bar".toList, " qux".toList⟩ false =
      ⟨some ⟨14, 21⟩, Status.exact⟩ :=
  ⟨by decide, by decide⟩

/-- Claim C4: for an anchor with non-empty `exact`, the resolver returns
the orphaned signal on an empty document and whenever the exact text
occurs nowhere in the document; conversely, whenever the exact text
occurs at least once, it returns a position (never the orphaned
signal). -/
theorem claim_C4 (doc : Str) (a : Anchor) (hne : a.exact ≠ []) :
    (doc = [] → findAnchorPosition doc a = none) ∧
    ((¬ ∃ i, matchesAt doc a.exact i = true) → findAnchorPosition doc a = none) ∧
    ((∃ i, matchesAt doc a.exact i = true) → ∃ p, findAnchorPosition doc a = some p) := by
  refine ⟨?_, ?_, ?_⟩
  · intro h; subst h; rfl
  · intro hno
    unfold findAnchorPosition
    by_cases h0 : doc.length = 0
    · rw [if_pos h0]
    · rw [if_neg h0, if_neg (fun h => hne (List.length_eq_zero.mp h))]
      cases hocc : occurrences doc a.exact with
      | nil => rfl
      | cons c cs =>
        exfalso
        have hcmem : c ∈ occurrences doc a.exact := by
          rw [hocc]; exact List.mem_cons_self c cs
        exact hno ⟨c.from', (occurrences_mem hcmem).2⟩
  · rintro ⟨i, hi⟩
    have hnn := occurrences_ne_nil hne hi
    have hb := matchesAt_bound hne hi
    have hpl : 0 < a.exact.length := List.length_pos.mpr hne
    unfold findAnchorPosition
    rw [if_neg (by omega), if_neg (by omega)]
    cases hocc : occurrences doc a.exact with
    | nil => exact absurd hocc hnn
    | cons c cs => exact ⟨pickBest doc a c cs, rfl⟩

/-- Witness for C4 at a concrete document and anchor. -/
theorem claim_C4_witness :
    (("xy".toList : Str) = [] →
      findAnchorPosition ("xy".toList) ⟨[], "x".toList, []⟩ = none) ∧
    ((¬ ∃ i, matchesAt ("xy".toList) ("x".toList) i = true) →
      findAnchorPosition ("xy".toList) ⟨[], "x".toList, []⟩ = none) ∧
    ((∃ i, matchesAt ("xy".toList) ("x".toList) i = true) →
      ∃ p, findAnchorPosition ("xy".toList) ⟨[], "x".toList, []⟩ = some p) :=
  claim_C4 ("xy".toList) ⟨[], "x".toList, []⟩ (by decide)

/-- Claim C6: with a non-empty stored suffix (of the invariant length
≤ 32, as is the stored prefix), a candidate whose trailing context
exactly equals the anchor's suffix scores at least as high in total as
any candidate with only a partial suffix match, independently of either
candidate's prefix score: an exact suffix is worth 100 points (here
doubled to 200) while a partial suffix is capped at 32 (64) and any
prefix score at 50 (100). -/
theorem claim_C6 (doc : Str) (a : Anchor) (p q : Position)
    (hs1 : 1 ≤ a.suf.length) (hs32 : a.suf.length ≤ 32) (hp32 : a.pre.length ≤ 32)
    (hp : followingText doc a p = a.suf)
    (hq : followingText doc a q ≠ a.suf) :
    total2 doc a q ≤ total2 doc a p := by
  have h1 : suffixScore2 doc a p = 200 := by unfold suffixScore2; rw [if_pos hp]
  have h2 : suffixScore2 doc a q = 2 * commonPrefixLen (followingText doc a q) a.suf := by
    unfold suffixScore2; rw [if_neg hq]
  have c1 := commonPrefixLen_le_right (followingText doc a q) a.suf
  have c2 := prefixScore2_le doc a q hp32
  unfold total2
  omega

/-- Witness for C6: in `"ab ab x"` the candidate at 3-5 has the exact
suffix `" x"` after it, the candidate at 0-2 only a partial one. -/
theorem claim_C6_witness :
    total2 ("ab ab x".toList) ⟨[], "ab".toList, " x".toList⟩ ⟨0, 2⟩ ≤
      total2 ("ab ab x".toList) ⟨[], "ab".toList, " x".toList⟩ ⟨3, 5⟩ :=
  claim_C6 ("ab ab x".toList) ⟨[], "ab".toList, " x".toList⟩ ⟨3, 5⟩ ⟨0, 2⟩
    (by decide) (by decide) (by decide) (by decide) (by decide)

/-- Claim C2: when the anchor's (non-empty) exact text has at least two
candidate occurrences, the resolver returns a candidate with the highest
total context score, and on ties the candidate with the lowest `from`
(the first occurrence), with status `exact`. -/
theorem claim_C2 (doc : Str) (a : Anchor) (hne : a.exact ≠ [])
    (hmulti : 2 ≤ (occurrences doc a.exact).length) :
    ∃ p, findAnchorPosition doc a = some p ∧ p ∈ occurrences doc a.exact ∧
      (∀ q ∈ occurrences doc a.exact, total2 doc a q ≤ total2 doc a p) ∧
      (∀ q ∈ occurrences doc a.exact, total2 doc a q = total2 doc a p →
        p.from' ≤ q.from') ∧
      (∀ b : Bool, findAnchorPositionWithStatus doc a b = ⟨some p, Status.exact⟩) := by
  cases hocc : occurrences doc a.exact with
  | nil => rw [hocc] at hmulti; simp at hmulti
  | cons c cs =>
    have hcmem : c ∈ occurrences doc a.exact := by
      rw [hocc]; exact List.mem_cons_self c cs
    have hb := matchesAt_bound hne (occurrences_mem hcmem).2
    have hpl : 0 < a.exact.length := List.length_pos.mpr hne
    have hd0 : ¬ doc.length = 0 := by omega
    have hmain : findAnchorPosition doc a = some (pickBest doc a c cs) := by
      unfold findAnchorPosition
      rw [if_neg hd0, if_neg (by omega), hocc]
    refine ⟨pickBest doc a c cs, hmain, ?_, ?_, ?_, ?_⟩
    · exact foldpick_mem (total2 doc a) cs c
    · intro q hq
      exact foldpick_le (total2 doc a) cs c q hq
    · intro q hq heq
      have hsorted : (occurrences doc a.exact).Pairwise
          (fun x y => x.from' < y.from') := occurrences_sorted hne
      rw [hocc] at hsorted
      exact foldpick_first (total2 doc a) cs c hsorted q hq heq
    · intro b
      unfold findAnchorPositionWithStatus
      rw [if_neg hd0, hmain]

/-- Witness for C2: `"abab"` contains two occurrences of `"ab"`. -/
theorem claim_C2_witness :
    ∃ p, findAnchorPosition ("abab".toList) ⟨[], "ab".toList, []⟩ = some p ∧
      p ∈ occurrences ("abab".toList) ("ab".toList) ∧
      (∀ q ∈ occurrences ("abab".toList) ("ab".toList),
        total2 ("abab".toList) ⟨[], "ab".toList, []⟩ q ≤
          total2 ("abab".toList) ⟨[], "ab".toList, []⟩ p) ∧
      (∀ q ∈ occurrences ("abab".toList) ("ab".toList),
        total2 ("abab".toList) ⟨[], "ab".toList, []⟩ q =
          total2 ("abab".toList) ⟨[], "ab".toList, []⟩ p → p.from' ≤ q.from') ∧
      (∀ b : Bool, findAnchorPositionWithStatus ("abab".toList)
          ⟨[], "ab".toList, []⟩ b = ⟨some p, Status.exact⟩) :=
  claim_C2 ("abab".toList) ⟨[], "ab".toList, []⟩ (by decide) (by decide)

/-- Claim C1 (counterexample): the round trip fails as universally
stated.  In `d = "aaa"` with the valid selection `from = 1, to = 3`, the
anchor's exact text `"aa"` is enumerated non-overlappingly from the
left, so the only candidate is the span 0-2; the resolver returns it
instead of the original span 1-3. -/
theorem claim_C1_counterexample :
    1 ≤ 3 ∧ 3 ≤ ("aaa".toList : Str).length ∧
    findAnchorPosition ("aaa".toList) (createAnchor ("aaa".toList) 1 3) =
      some ⟨0, 2⟩ ∧
    some (⟨0, 2⟩ : Position) ≠ some (⟨1, 3⟩ : Position) := by
  decide

/-- Claim C1 (amended): the round trip holds for every non-empty
selection whose span is among the resolver's non-overlapping left-to-
right occurrences of the selected text, provided no earlier occurrence
carries context identical to the anchor's (its following text equal to
the stored suffix and its preceding text equal to the stored prefix).
Then `findAnchorPosition(d, createAnchor(d, from, to))` returns exactly
`{from, to}`, with status `exact`. -/
theorem claim_C1_amended (d : Str) (f t : Nat) (hft : f < t) (ht : t ≤ d.length)
    (hmem : (⟨f, t⟩ : Position) ∈ occurrences d (createAnchor d f t).exact)
    (hctx : ∀ q ∈ occurrences d (createAnchor d f t).exact, q.from' < f →
      ¬(followingText d (createAnchor d f t) q = (createAnchor d f t).suf ∧
        precedingText d (createAnchor d f t) q = (createAnchor d f t).pre)) :
    findAnchorPosition d (createAnchor d f t) = some ⟨f, t⟩ ∧
    ∀ b : Bool, findAnchorPositionWithStatus d (createAnchor d f t) b =
      ⟨some ⟨f, t⟩, Status.exact⟩ := by
  have hexlen : (createAnchor d f t).exact.length = t - f :=
    createAnchor_exact_len d f t (Nat.le_of_lt hft) ht
  have hexne : (createAnchor d f t).exact ≠ [] := by
    intro h
    rw [h] at hexlen
    simp at hexlen
    omega
  have hd0 : ¬ d.length = 0 := by omega
  have hsuf32 := createAnchor_suf_len d f t
  have hpre32 := createAnchor_pre_len d f t
  have hp0max : total2 d (createAnchor d f t) ⟨f, t⟩ = 300 :=
    total2_max_of_exact (createAnchor_following d f t)
      (createAnchor_preceding d f t (by omega))
  cases hocc : occurrences d (createAnchor d f t).exact with
  | nil => rw [hocc] at hmem; simp at hmem
  | cons c cs =>
    rw [hocc] at hmem
    have hpick : pickBest d (createAnchor d f t) c cs ∈ c :: cs :=
      foldpick_mem (total2 d (createAnchor d f t)) cs c
    have hpickocc : pickBest d (createAnchor d f t) c cs ∈
        occurrences d (createAnchor d f t).exact := by rw [hocc]; exact hpick
    have hle : total2 d (createAnchor d f t) ⟨f, t⟩ ≤
        total2 d (createAnchor d f t) (pickBest d (createAnchor d f t) c cs) :=
      foldpick_le (total2 d (createAnchor d f t)) cs c ⟨f, t⟩ hmem
    have hcap : total2 d (createAnchor d f t)
        (pickBest d (createAnchor d f t) c cs) ≤ 300 :=
      total2_le d (createAnchor d f t) (pickBest d (createAnchor d f t) c cs)
        hsuf32 hpre32
    have hpick300 : total2 d (createAnchor d f t)
        (pickBest d (createAnchor d f t) c cs) = 300 := by omega
    have hctxpick := total2_eq_max hsuf32 hpre32 hpick300
    have hnotlt : ¬ (pickBest d (createAnchor d f t) c cs).from' < f :=
      fun hlt => hctx _ hpickocc hlt hctxpick
    have hsorted : (occurrences d (createAnchor d f t).exact).Pairwise
        (fun x y => x.from' < y.from') := occurrences_sorted hexne
    rw [hocc] at hsorted
    have hfirst : (pickBest d (createAnchor d f t) c cs).from' ≤ f :=
      foldpick_first (total2 d (createAnchor d f t)) cs c hsorted ⟨f, t⟩ hmem
        (hp0max.trans hpick300.symm)
    have hattr := occurrences_mem hpickocc
    have hfrm : (pickBest d (createAnchor d f t) c cs).from' = f := by omega
    have hto : (pickBest d (createAnchor d f t) c cs).to' = t := by
      rw [hattr.1, hfrm, hexlen]
      omega
    have hpeq : pickBest d (createAnchor d f t) c cs = ⟨f, t⟩ := by
      calc pickBest d (createAnchor d f t) c cs
          = ⟨(pickBest d (createAnchor d f t) c cs).from',
             (pickBest d (createAnchor d f t) c cs).to'⟩ := rfl
        _ = ⟨f, t⟩ := by rw [hfrm, hto]
    have hmain : findAnchorPosition d (createAnchor d f t) = some ⟨f, t⟩ := by
      unfold findAnchorPosition
      rw [if_neg hd0, if_neg (by omega), hocc]
      show some (pickBest d (createAnchor d f t) c cs) = some ⟨f, t⟩
      rw [hpeq]
    refine ⟨hmain, fun b => ?_⟩
    unfold findAnchorPositionWithStatus
    rw [if_neg hd0, hmain]

/-- Witness for the amended C1: in `"abcabc"` the selection 3-6 is the
second of two occurrences of `"abc"`, and the earlier occurrence lacks
the anchor's preceding context. -/
theorem claim_C1_witness :
    findAnchorPosition ("abcabc".toList)
        (createAnchor ("abcabc".toList) 3 6) = some ⟨3, 6⟩ ∧
    ∀ b : Bool, findAnchorPositionWithStatus ("abcabc".toList)
        (createAnchor ("abcabc".toList) 3 6) b = ⟨some ⟨3, 6⟩, Status.exact⟩ :=
  claim_C1_amended ("abcabc".toList) 3 6 (by decide) (by decide) (by decide)
    (by decide)

/-! ### Facts about the word snapper -/

theorem length_dropWhile_le' {α : Type} (p : α → Bool) (l : List α) :
    (l.dropWhile p).length ≤ l.length := by
  induction l with
  | nil => simp [List.dropWhile]
  | cons c cs ih =>
    by_cases h : p c
    · simp only [List.dropWhile, h]
      simp only [List.length_cons]
      omega
    · simp only [List.dropWhile, h]
      simp

theorem length_takeWhile_le' {α : Type} (p : α → Bool) (l : List α) :
    (l.takeWhile p).length ≤ l.length := by
  induction l with
  | nil => simp [List.takeWhile]
  | cons c cs ih =>
    by_cases h : p c
    · simp only [List.takeWhile, h]
      simp only [List.length_cons]
      omega
    · simp only [List.takeWhile, h]
      simp

theorem trimEnd_length_le (s : Str) : (trimEnd s).length ≤ s.length := by
  unfold trimEnd
  rw [List.length_reverse]
  have h := length_dropWhile_le' Char.isWhitespace s.reverse
  rw [List.length_reverse] at h
  exact h

theorem lastIndexOfAux_some {s pat : Str} : ∀ (k j : Nat),
    lastIndexOfAux s pat k = some j → j ≤ k ∧ matchesAt s pat j = true := by
  intro k
  induction k with
  | zero =>
    intro j h
    rw [lastIndexOfAux] at h
    by_cases hm : matchesAt s pat 0
    · rw [if_pos hm] at h
      cases h
      exact ⟨Nat.le_refl _, hm⟩
    · rw [if_neg hm] at h
      exact Option.noConfusion h
  | succ n ih =>
    intro j h
    rw [lastIndexOfAux] at h
    by_cases hm : matchesAt s pat (n + 1)
    · rw [if_pos hm] at h
      cases h
      exact ⟨Nat.le_refl _, hm⟩
    · rw [if_neg hm] at h
      have h2 := ih j h
      exact ⟨by omega, h2.2⟩

theorem lastIndexOf_bound {s pat : Str} {j : Nat} (h : lastIndexOf s pat = some j) :
    j ≤ s.length ∧ j + pat.length ≤ s.length := by
  have h1 := lastIndexOfAux_some s.length j h
  refine ⟨h1.1, ?_⟩
  by_cases hp : pat = []
  · subst hp
    simpa using h1.1
  · exact matchesAt_bound hp h1.2

theorem firstWordAux_bound : ∀ (s : Str) (i : Nat) (p : Position),
    firstWordAux s i = some p →
      i ≤ p.from' ∧ p.from' < p.to' ∧ p.to' ≤ i + s.length := by
  intro s
  induction s with
  | nil => intro i p h; exact Option.noConfusion h
  | cons c cs ih =>
    intro i p h
    rw [firstWordAux] at h
    by_cases hw : isWordChar c
    · rw [if_pos hw] at h
      cases h
      refine ⟨Nat.le_refl _, by show i < i + 1 + _; omega, ?_⟩
      have ht := length_takeWhile_le' isWordChar cs
      show i + 1 + (cs.takeWhile isWordChar).length ≤ i + (c :: cs).length
      simp only [List.length_cons]
      omega
    · rw [if_neg hw] at h
      have h2 := ih (i + 1) p h
      refine ⟨by omega, h2.2.1, ?_⟩
      have h3 := h2.2.2
      simp only [List.length_cons]
      omega

theorem wordRunsAux_ne_nil : ∀ (s acc : Str), ∀ w ∈ wordRunsAux s acc, w ≠ [] := by
  intro s
  induction s with
  | nil =>
    intro acc w hw
    rw [wordRunsAux] at hw
    by_cases ha : acc = []
    · rw [if_pos ha] at hw; simp at hw
    · rw [if_neg ha] at hw
      have he := List.mem_singleton.mp hw
      subst he
      simpa using ha
  | cons c cs ih =>
    intro acc w hw
    rw [wordRunsAux] at hw
    by_cases hc : isWordChar c
    · rw [if_pos hc] at hw
      exact ih (c :: acc) w hw
    · rw [if_neg hc] at hw
      by_cases ha : acc = []
      · rw [if_pos ha] at hw
        exact ih [] w hw
      · rw [if_neg ha] at hw
        rcases List.mem_cons.mp hw with he | he
        · subst he
          simpa using ha
        · exact ih [] w he

theorem snapFirstWord_some {ss : Nat} {context : Str} {p : Position}
    (h : snapFirstWord ss context = some p) :
    ss ≤ p.from' ∧ p.from' < p.to' ∧ p.to' ≤ ss + context.length := by
  unfold snapFirstWord at h
  cases hf : firstWordRun context with
  | none => rw [hf] at h; exact Option.noConfusion h
  | some r =>
    rw [hf] at h
    cases h
    have hb := firstWordAux_bound context 0 r hf
    refine ⟨by show ss ≤ ss + r.from'; omega, ?_, ?_⟩
    · show ss + r.from' < ss + r.to'
      omega
    · show ss + r.to' ≤ ss + context.length
      omega

theorem snapFirstWord_window {i plen : Nat} {doc : Str} {p : Position}
    (hss : i + plen ≤ doc.length)
    (h : snapFirstWord (i + plen)
      (substring doc (i + plen) (min (i + plen + 100) doc.length)) = some p) :
    i + plen ≤ p.from' ∧ p.from' < p.to' ∧
      p.to' ≤ min (i + plen + 100) doc.length := by
  have hb := snapFirstWord_some h
  have hcl : (substring doc (i + plen) (min (i + plen + 100) doc.length)).length
      = min (i + plen + 100) doc.length - (i + plen) := by
    rw [substring_length]
    apply Nat.min_eq_left
    omega
  refine ⟨hb.1, hb.2.1, ?_⟩
  have h3 := hb.2.2
  omega

/-- Claim C7: `snapToNearestWord` returns `null` when the prefix is
absent from the document, and every position it returns lies inside the
bounded 100-character look-ahead window that starts immediately after
the last occurrence of the prefix. -/
theorem claim_C7 (doc pre suf : Str) :
    (lastIndexOf doc pre = none → snapToNearestWord doc pre suf = none) ∧
    (∀ p : Position, snapToNearestWord doc pre suf = some p →
      ∃ i, lastIndexOf doc pre = some i ∧
        i + pre.length ≤ p.from' ∧ p.from' < p.to' ∧
        p.to' ≤ min (i + pre.length + 100) doc.length) := by
  constructor
  · intro h
    unfold snapToNearestWord
    rw [h]
  · intro p hp
    cases hli : lastIndexOf doc pre with
    | none =>
      unfold snapToNearestWord at hp
      rw [hli] at hp
      exact Option.noConfusion hp
    | some i =>
      have hss : i + pre.length ≤ doc.length := (lastIndexOf_bound hli).2
      refine ⟨i, rfl, ?_⟩
      simp only [snapToNearestWord, hli] at hp
      split at hp
      · -- long suffix
        split at hp
        · -- suffix found in the window
          rename_i suffixIndex hsi
          split at hp
          · -- a last word run exists
            rename_i w hw
            split at hp
            · -- its text located by lastIndexOf (always succeeds)
              rename_i j hj
              cases hp
              have hwne : w ≠ [] :=
                wordRunsAux_ne_nil _ [] w (List.mem_of_mem_getLast? hw)
              have hwpos : 0 < w.length := List.length_pos.mpr hwne
              have hjb := lastIndexOf_bound hj
              have hbs : (trimEnd ((substring doc (i + pre.length)
                  (min (i + pre.length + 100) doc.length)).take suffixIndex)).length ≤
                  ((substring doc (i + pre.length)
                    (min (i + pre.length + 100) doc.length)).take suffixIndex).length :=
                trimEnd_length_le _
              have htk : ((substring doc (i + pre.length)
                  (min (i + pre.length + 100) doc.length)).take suffixIndex).length ≤
                  (substring doc (i + pre.length)
                    (min (i + pre.length + 100) doc.length)).length := by
                rw [List.length_take]
                omega
              have hcl : (substring doc (i + pre.length)
                  (min (i + pre.length + 100) doc.length)).length
                  = min (i + pre.length + 100) doc.length - (i + pre.length) := by
                rw [substring_length]
                apply Nat.min_eq_left
                omega
              refine ⟨by show i + pre.length ≤ i + pre.length + j; omega, ?_, ?_⟩
              · show i + pre.length + j < i + pre.length + j + w.length
                omega
              · show i + pre.length + j + w.length ≤
                  min (i + pre.length + 100) doc.length
                omega
            · exact Option.noConfusion hp
          · exact snapFirstWord_window hss hp
        · exact snapFirstWord_window hss hp
      · exact snapFirstWord_window hss hp

/-- Witness for C7: in `"ab cd"` with prefix `"ab"` the snapper returns
the span of `"cd"`, inside the window after the prefix. -/
theorem claim_C7_witness :
    ∃ i, lastIndexOf ("ab cd".toList) ("ab".toList) = some i ∧
      i + ("ab".toList : Str).length ≤ (3 : Nat) ∧ (3 : Nat) < (5 : Nat) ∧
      (5 : Nat) ≤ min (i + ("ab".toList : Str).length + 100)
        ("ab cd".toList : Str).length :=
  (claim_C7 ("ab cd".toList) ("ab".toList) []).2 ⟨3, 5⟩ (by decide)

/-! ### The empty-prefix degenerate case of the snapper -/

theorem matchesAt_nil (s : Str) (i : Nat) : matchesAt s [] i = true := by
  unfold matchesAt substring
  simp

theorem lastIndexOf_nil (s : Str) : lastIndexOf s [] = some s.length := by
  unfold lastIndexOf
  cases hs : s.length with
  | zero => rw [lastIndexOfAux, if_pos (matchesAt_nil s 0)]
  | succ n => rw [lastIndexOfAux, if_pos (matchesAt_nil s (n + 1))]

theorem substring_end (s : Str) (j : Nat) : substring s s.length j = [] := by
  unfold substring
  rw [List.drop_length]
  simp

theorem indexOf_nil_left {pat : Str} (hp : pat ≠ []) : indexOf [] pat = none := by
  have hm : matchesAt [] pat 0 = false := by
    unfold matchesAt substring
    simp only [List.drop_nil, List.take_nil]
    exact decide_eq_false (fun h => hp h.symm)
  unfold indexOf
  simp only [List.length_nil]
  rw [indexOfAux, hm]
  rfl

theorem snapToNearestWord_nil_pre (doc suf : Str) :
    snapToNearestWord doc [] suf = none := by
  have h1 := lastIndexOf_nil doc
  simp only [snapToNearestWord, h1, List.length_nil, Nat.add_zero]
  rw [substring_end]
  by_cases h5 : 5 < suf.length
  · rw [if_pos h5]
    have hsufne : suf ≠ [] := by
      intro h
      rw [h] at h5
      simp at h5
    rw [indexOf_nil_left hsufne]
    rfl
  · rw [if_neg h5]
    rfl

/-- Claim C9: with an empty stored prefix, `snapToNearestWord` always
returns `null` — the last occurrence of the empty prefix is the document
end, the look-ahead window is empty, and no word run can be found.
Consequently a comment whose anchor prefix is empty can never be given
status `snapped` by `validateComment`, even with `allowSnap` enabled. -/
theorem claim_C9 :
    (∀ doc suf : Str, snapToNearestWord doc [] suf = none) ∧
    (∀ (doc : Str) (c : Comment), c.anchor.pre = [] →
      (validateComment doc c true).status ≠ Status.snapped) := by
  refine ⟨snapToNearestWord_nil_pre, ?_⟩
  intro doc c hpre hsnap
  have hst : (findAnchorPositionWithStatus doc c.anchor true).status =
      Status.snapped := hsnap
  unfold findAnchorPositionWithStatus at hst
  by_cases h0 : doc.length = 0
  · rw [if_pos h0] at hst
    exact Status.noConfusion hst
  · rw [if_neg h0] at hst
    cases hf : findAnchorPosition doc c.anchor with
    | some p =>
      rw [hf] at hst
      exact Status.noConfusion hst
    | none =>
      rw [hf] at hst
      have hnil : snapToNearestWord doc c.anchor.pre c.anchor.suf = none := by
        rw [hpre]
        exact snapToNearestWord_nil_pre doc c.anchor.suf
      rw [hnil] at hst
      exact Status.noConfusion hst

/-- Witness for C9 at a concrete document and empty-prefix comment. -/
theorem claim_C9_witness :
    (validateComment ("hello".toList)
      ⟨"c1".toList, ⟨[], "gone".toList, "xxxxxx".toList⟩⟩ true).status ≠
      Status.snapped :=
  claim_C9.2 ("hello".toList)
    ⟨"c1".toList, ⟨[], "gone".toList, "xxxxxx".toList⟩⟩ rfl

/-! ### Partition facts for the validator -/

theorem filter_three_length (vs : List Validation) :
    (vs.filter (fun v => v.status == Status.exact)).length +
      (vs.filter (fun v => v.status == Status.snapped)).length +
      (vs.filter (fun v => v.status == Status.orphaned)).length = vs.length := by
  induction vs with
  | nil => rfl
  | cons v vs ih =>
    cases hv : v.status
    · simp [List.filter_cons, hv]
      omega
    · simp [List.filter_cons, hv]
      omega
    · simp [List.filter_cons, hv]
      omega

theorem filter_three_perm (vs : List Validation) :
    ((vs.filter (fun v => v.status == Status.exact)) ++
      (vs.filter (fun v => v.status == Status.snapped)) ++
      (vs.filter (fun v => v.status == Status.orphaned))).Perm vs := by
  induction vs with
  | nil => simp
  | cons v vs ih =>
    cases hv : v.status
    · have h1 : ((v :: vs).filter (fun x => x.status == Status.exact)) =
          v :: (vs.filter (fun x => x.status == Status.exact)) := by
        simp [List.filter_cons, hv]
      have h2 : ((v :: vs).filter (fun x => x.status == Status.snapped)) =
          (vs.filter (fun x => x.status == Status.snapped)) := by
        simp [List.filter_cons, hv]
      have h3 : ((v :: vs).filter (fun x => x.status == Status.orphaned)) =
          (vs.filter (fun x => x.status == Status.orphaned)) := by
        simp [List.filter_cons, hv]
      rw [h1, h2, h3, List.cons_append, List.cons_append]
      exact ih.cons v
    · have h1 : ((v :: vs).filter (fun x => x.status == Status.exact)) =
          (vs.filter (fun x => x.status == Status.exact)) := by
        simp [List.filter_cons, hv]
      have h2 : ((v :: vs).filter (fun x => x.status == Status.snapped)) =
          v :: (vs.filter (fun x => x.status == Status.snapped)) := by
        simp [List.filter_cons, hv]
      have h3 : ((v :: vs).filter (fun x => x.status == Status.orphaned)) =
          (vs.filter (fun x => x.status == Status.orphaned)) := by
        simp [List.filter_cons, hv]
      rw [h1, h2, h3, List.append_assoc, List.cons_append]
      refine List.Perm.trans List.perm_middle ?_
      refine List.Perm.cons v ?_
      rw [← List.append_assoc]
      exact ih
    · have h1 : ((v :: vs).filter (fun x => x.status == Status.exact)) =
          (vs.filter (fun x => x.status == Status.exact)) := by
        simp [List.filter_cons, hv]
      have h2 : ((v :: vs).filter (fun x => x.status == Status.snapped)) =
          (vs.filter (fun x => x.status == Status.snapped)) := by
        simp [List.filter_cons, hv]
      have h3 : ((v :: vs).filter (fun x => x.status == Status.orphaned)) =
          v :: (vs.filter (fun x => x.status == Status.orphaned)) := by
        simp [List.filter_cons, hv]
      rw [h1, h2, h3]
      exact List.Perm.trans List.perm_middle (ih.cons v)

theorem all_filter_self {α : Type} (p : α → Bool) (l : List α) :
    (l.filter p).all p = true := by
  induction l with
  | nil => rfl
  | cons x xs ih =>
    by_cases h : p x
    · simp [List.filter_cons, h, ih]
    · simp [List.filter_cons, h, ih]

/-- Claim C8: `validateComments` places each comment's validation result
in exactly one of the `valid`, `snapped` and `orphaned` lists according
to its status — the three lists together are a permutation of the mapped
validations and each list holds only its own status — and the returned
counts are the three list lengths, `total` is the input length, and the
three counts sum to `total`. -/
theorem claim_C8 (doc : Str) (comments : List Comment) (allowSnap : Bool) :
    (validateComments doc comments allowSnap).total = comments.length ∧
    (validateComments doc comments allowSnap).validCount =
      (validateComments doc comments allowSnap).valid.length ∧
    (validateComments doc comments allowSnap).snappedCount =
      (validateComments doc comments allowSnap).snapped.length ∧
    (validateComments doc comments allowSnap).orphanedCount =
      (validateComments doc comments allowSnap).orphaned.length ∧
    (validateComments doc comments allowSnap).validCount +
      (validateComments doc comments allowSnap).snappedCount +
      (validateComments doc comments allowSnap).orphanedCount =
      (validateComments doc comments allowSnap).total ∧
    ((validateComments doc comments allowSnap).valid ++
      (validateComments doc comments allowSnap).snapped ++
      (validateComments doc comments allowSnap).orphaned).Perm
      (comments.map (fun c => validateComment doc c allowSnap)) ∧
    (validateComments doc comments allowSnap).valid.all
      (fun v => v.status == Status.exact) = true ∧
    (validateComments doc comments allowSnap).snapped.all
      (fun v => v.status == Status.snapped) = true ∧
    (validateComments doc comments allowSnap).orphaned.all
      (fun v => v.status == Status.orphaned) = true := by
  refine ⟨rfl, rfl, rfl, rfl, ?_, ?_, ?_, ?_, ?_⟩
  · have h := filter_three_length
      (comments.map (fun c => validateComment doc c allowSnap))
    simpa using h
  · exact filter_three_perm _
  · exact all_filter_self _ _
  · exact all_filter_self _ _
  · exact all_filter_self _ _

/-- Claim C10: the validator preserves input order — each of the
`valid`, `snapped` and `orphaned` lists is an order-preserving sublist
of the validations taken in input order — and `getOrphanedCommentIds`
returns exactly the ids of the orphaned validations in input order. -/
theorem claim_C10 (doc : Str) (comments : List Comment) :
    getOrphanedCommentIds doc comments =
      ((comments.map (fun c => validateComment doc c false)).filter
        (fun v => v.status == Status.orphaned)).map (fun v => v.id) ∧
    ∀ allowSnap : Bool,
      (validateComments doc comments allowSnap).valid.Sublist
        (comments.map (fun c => validateComment doc c allowSnap)) ∧
      (validateComments doc comments allowSnap).snapped.Sublist
        (comments.map (fun c => validateComment doc c allowSnap)) ∧
      (validateComments doc comments allowSnap).orphaned.Sublist
        (comments.map (fun c => validateComment doc c allowSnap)) := by
  refine ⟨rfl, fun allowSnap =>
    ⟨List.filter_sublist _, List.filter_sublist _, List.filter_sublist _⟩⟩
